import Mathlib

/-!
Verification of the Silero VAD batch tool
(`src/core/providers/vad/silero/run_silero_vad.py`).

The script reads a waveform, validates the sample rate, collapses
multi-channel audio to mono by averaging, peak-normalizes amplitudes,
checks that the model file exists, runs inference to obtain a per-sample
speech-probability curve, and converts that curve into half-open speech
segments with a single-pass threshold-crossing state machine.

Floating-point samples and probabilities are embedded as rationals (ℚ);
numpy arrays become Lean lists.  The `sys.exit`/`print` surface is
embedded as a `RunResult` sum: a structured JSON error (tagged by which
of the two recognized errors fired, together with the exact message the
f-string renders), a successful segment list, or an uncaught Python
exception (`unstructuredError`, e.g. `max()` of an empty array).
-/

namespace SileroVad

/-- State of the segmentation loop in `run_vad`: the Python locals
`in_speech`, `seg_start` and `segments` of the post-processing loop. -/
structure VadState where
  in_speech : Bool
  seg_start : Nat
  segments : List (Nat × Nat)
deriving DecidableEq

/-- One iteration of the loop
`for i, prob in enumerate(speech_probs): ...`:
`if not in_speech and prob > threshold:` enter speech and record
`seg_start = i`; `elif in_speech and prob <= threshold:` leave speech and
append `[seg_start, i]`. -/
def vadStep (threshold : ℚ) (i : Nat) (prob : ℚ) (st : VadState) : VadState :=
  if st.in_speech = false ∧ threshold < prob then
    { st with in_speech := true, seg_start := i }
  else if st.in_speech = true ∧ prob ≤ threshold then
    { st with in_speech := false, segments := st.segments ++ [(st.seg_start, i)] }
  else
    st

/-- The whole `for` loop over the probability curve, `i` being the index
`enumerate` supplies for the head of the remaining list. -/
def vadLoop (threshold : ℚ) : List ℚ → Nat → VadState → VadState
  | [], _, st => st
  | p :: ps, i, st => vadLoop threshold ps (i + 1) (vadStep threshold i p st)

/-- Loop-entry state: `in_speech = False`, `seg_start = 0`, `segments = []`. -/
def initState : VadState := ⟨false, 0, []⟩

/-- The code after the loop: `if in_speech: segments.append([seg_start,
len(speech_probs)])`, where `n` is the curve length. -/
def finishVad (n : Nat) (st : VadState) : List (Nat × Nat) :=
  if st.in_speech = true then st.segments ++ [(st.seg_start, n)] else st.segments

/-- The complete segmenter of `run_vad`: probability curve and threshold
to the emitted list of `[start, end)` segments. -/
def segmentProbs (probs : List ℚ) (threshold : ℚ) : List (Nat × Nat) :=
  finishVad probs.length (vadLoop threshold probs 0 initState)

/-- `j` lies inside one of the emitted segments (`start <= j < end`). -/
def coveredBy (j : Nat) (segs : List (Nat × Nat)) : Prop :=
  ∃ s ∈ segs, s.1 ≤ j ∧ j < s.2

/-- Mid-scan invariant of the segmentation loop, about to process index
`i`: the closed segments are in strictly separated order with positive
length; while in speech the open segment started before `i` and after
every closed one; while in silence every closed segment ended before
`i`. -/
def VadInv (i : Nat) (st : VadState) : Prop :=
  List.Pairwise (fun a b : Nat × Nat => a.2 < b.1) st.segments ∧
  (∀ s ∈ st.segments, s.1 < s.2) ∧
  (st.in_speech = true → st.seg_start < i ∧ ∀ s ∈ st.segments, s.2 < st.seg_start) ∧
  (st.in_speech = false → ∀ s ∈ st.segments, s.2 < i)

/-- The waveform `sf.read` returns: either a mono sample list
(`audio.ndim == 1`) or a frame-major multi-channel array
(`audio.ndim > 1`, each frame holding one value per channel). -/
inductive Audio where
  | mono (samples : List ℚ)
  | multi (frames : List (List ℚ))

/-- `if audio.ndim > 1: audio = audio.mean(axis=1)` — multi-channel audio
is collapsed to one channel by the arithmetic mean across channels at
each sample position; mono audio passes through. -/
def collapseChannels : Audio → List ℚ
  | .mono samples => samples
  | .multi frames => frames.map (fun f => f.sum / (f.length : ℚ))

/-- `np.abs(audio).max()`: the largest absolute sample value.  On an
empty array numpy raises (`max()` of a zero-size array), embedded as
`none`. -/
def absMax : List ℚ → Option ℚ
  | [] => none
  | x :: xs => some (xs.foldl (fun m y => max m |y|) |x|)

/-- `if np.abs(audio).max() > 1.0: audio = audio / np.abs(audio).max()` —
peak normalization, a no-op when the peak is at most `1.0`.  Propagates
the empty-array failure of `absMax`. -/
def normalize (a : List ℚ) : Option (List ℚ) :=
  match absMax a with
  | none => none
  | some m => if 1 < m then some (a.map (fun x => x / m)) else some a

/-- The whole preprocessing stage: channel collapse followed by peak
normalization; its output is single-channel by construction. -/
def preprocess (audio : Audio) : Option (List ℚ) :=
  normalize (collapseChannels audio)

/-- One invocation's environment for `run_vad`: the waveform and sample
rate `sf.read` yields, the model path, whether `os.path.exists` finds
the model, and the inference oracle (the ONNX session mapping the
preprocessed waveform to the speech-probability curve `outs[0][0]`). -/
structure VadInput where
  audio : Audio
  sr : Int
  modelPath : String
  modelExists : Bool
  infer : List ℚ → List ℚ

/-- The two recognized failures `run_vad` converts into structured JSON
errors, with the exact message each f-string renders. -/
inductive VadError where
  | sampleRateMismatch (actual expected : Int)
  | modelNotFound (path : String)
deriving DecidableEq

/-- The text of `{"error": <message>}`: `f"Sample rate mismatch: {sr} !=
{sample_rate}"` or `f"Model not found: {model_path}"`. -/
def VadError.message : VadError → String
  | .sampleRateMismatch actual expected =>
      "Sample rate mismatch: " ++ toString actual ++ " != " ++ toString expected
  | .modelNotFound path => "Model not found: " ++ path

/-- Observable outcome of one `run_vad` invocation: a structured JSON
error printed before `sys.exit(1)`, the segment list printed as a JSON
array with exit code 0, or an uncaught Python exception (no JSON
output). -/
inductive RunResult where
  | structuredError (err : VadError)
  | success (segments : List (Nat × Nat))
  | unstructuredError
deriving DecidableEq

/-- The process exit status each outcome produces (an uncaught exception
terminates CPython with status 1). -/
def exitCode : RunResult → Nat
  | .structuredError _ => 1
  | .success _ => 0
  | .unstructuredError => 1

/-- The body of `run_vad`, in the source's order: sample-rate check,
channel collapse, normalization (which raises on an empty waveform),
model-existence check, inference, segmentation. -/
def run_vad (inp : VadInput) (threshold : ℚ) (sample_rate : Int) : RunResult :=
  if inp.sr ≠ sample_rate then
    .structuredError (.sampleRateMismatch inp.sr sample_rate)
  else
    match preprocess inp.audio with
    | none => .unstructuredError
    | some audio =>
        if inp.modelExists = false then
          .structuredError (.modelNotFound inp.modelPath)
        else
          .success (segmentProbs (inp.infer audio) threshold)

end SileroVad

namespace SileroVad

/-- Claim C4: the curve `[0.1, 0.6, 0.7, 0.4, 0.9, 0.3]` at threshold
`0.5` segments to exactly `[[1,3],[4,5]]`. -/
theorem segment_concrete_mixed :
    segmentProbs [mkRat 1 10, mkRat 6 10, mkRat 7 10, mkRat 4 10, mkRat 9 10, mkRat 3 10]
      (mkRat 1 2) = [(1, 3), (4, 5)] := by
  decide

/-- Claim C5: for every threshold, an empty probability curve yields
the empty segment list, not an error. -/
theorem segment_empty_curve (threshold : ℚ) : segmentProbs [] threshold = [] := by
  rfl

/-- Claim C3: if the scan ends still in `Speech` state, a final segment
`[seg_start, length)` extending to the end of the curve is emitted;
concretely, the never-dropping curve `[0.9, 0.9, 0.9]` at threshold
`0.5` yields exactly `[[0,3]]`. -/
theorem segment_end_of_stream :
    (∀ (probs : List ℚ) (threshold : ℚ),
      (vadLoop threshold probs 0 initState).in_speech = true →
      segmentProbs probs threshold =
        (vadLoop threshold probs 0 initState).segments ++
          [((vadLoop threshold probs 0 initState).seg_start, probs.length)]) ∧
    segmentProbs [mkRat 9 10, mkRat 9 10, mkRat 9 10] (mkRat 1 2) = [(0, 3)] := by
  constructor
  · intro probs threshold h
    simp [segmentProbs, finishVad, h]
  · decide

/-- Witness: the trailing-open-segment rule applied to the concrete curve
`[0.9, 0.9, 0.9]` with threshold `0.5`. -/
theorem segment_end_of_stream_witness :
    segmentProbs [mkRat 9 10, mkRat 9 10, mkRat 9 10] (mkRat 1 2) =
      (vadLoop (mkRat 1 2) [mkRat 9 10, mkRat 9 10, mkRat 9 10] 0 initState).segments ++
        [((vadLoop (mkRat 1 2) [mkRat 9 10, mkRat 9 10, mkRat 9 10] 0 initState).seg_start,
          ([mkRat 9 10, mkRat 9 10, mkRat 9 10] : List ℚ).length)] :=
  segment_end_of_stream.1 [mkRat 9 10, mkRat 9 10, mkRat 9 10] (mkRat 1 2) (by decide)

/-- Claim C2: threshold asymmetry of one loop iteration: from `Silence`
the state becomes `Speech` exactly when `prob > threshold` strictly;
from `Speech` it becomes `Silence` exactly when `prob <= threshold`;
hence a probability equal to the threshold never starts a segment (the
state is returned unchanged) and always ends an open one (the segment
`[seg_start, i)` is emitted). -/
theorem threshold_asymmetry (threshold prob : ℚ) (i : Nat) (st : VadState) :
    (st.in_speech = false →
      ((vadStep threshold i prob st).in_speech = true ↔ threshold < prob)) ∧
    (st.in_speech = true →
      ((vadStep threshold i prob st).in_speech = false ↔ prob ≤ threshold)) ∧
    (prob = threshold →
      (st.in_speech = false → vadStep threshold i prob st = st) ∧
      (st.in_speech = true →
        vadStep threshold i prob st =
          { in_speech := false, seg_start := st.seg_start,
            segments := st.segments ++ [(st.seg_start, i)] })) := by
  refine ⟨?_, ?_, ?_⟩
  · intro hs
    unfold vadStep
    rcases lt_or_le threshold prob with hlt | hle
    · simp [hs, hlt]
    · simp [hs, not_lt.mpr hle, hle]
  · intro hs
    unfold vadStep
    rcases le_or_lt prob threshold with hle | hlt
    · simp [hs, not_lt.mpr hle, hle]
    · simp [hs, hlt, not_le.mpr hlt]
  · rintro rfl
    constructor
    · intro hs
      unfold vadStep
      simp [hs]
    · intro hs
      unfold vadStep
      simp [hs]

/-- Witness: at `i = 3` with `prob = threshold = 0.5` and an open segment
started at `1`, the step closes the segment `[1, 3)` and leaves speech. -/
theorem threshold_asymmetry_witness :
    vadStep (mkRat 1 2) 3 (mkRat 1 2) ⟨true, 1, []⟩ =
      { in_speech := false, seg_start := 1, segments := [(1, 3)] } :=
  (threshold_asymmetry (mkRat 1 2) (mkRat 1 2) 3 ⟨true, 1, []⟩).2.2 rfl |>.2 rfl

/-- The running maximum of absolute values stays below any bound that
dominates the accumulator and every element. -/
theorem foldl_absmax_le {c : ℚ} :
    ∀ (xs : List ℚ) (acc : ℚ), acc ≤ c → (∀ y ∈ xs, |y| ≤ c) →
      xs.foldl (fun m y => max m |y|) acc ≤ c := by
  intro xs
  induction xs with
  | nil => intro acc hacc _; simpa using hacc
  | cons x xs ih =>
      intro acc hacc hall
      simp only [List.foldl_cons]
      exact ih (max acc |x|) (max_le hacc (hall x (by simp)))
        (fun y hy => hall y (by simp [hy]))

/-- The accumulator never exceeds the running maximum of absolute values. -/
theorem le_foldl_absmax :
    ∀ (xs : List ℚ) (acc : ℚ), acc ≤ xs.foldl (fun m y => max m |y|) acc := by
  intro xs
  induction xs with
  | nil => intro acc; simp
  | cons x xs ih =>
      intro acc
      simp only [List.foldl_cons]
      exact le_trans (le_max_left acc |x|) (ih (max acc |x|))

/-- Every element's absolute value is bounded by the running maximum. -/
theorem mem_le_foldl_absmax :
    ∀ (xs : List ℚ) (acc y : ℚ), y ∈ xs → |y| ≤ xs.foldl (fun m y => max m |y|) acc := by
  intro xs
  induction xs with
  | nil => intro acc y hy; simp at hy
  | cons x xs ih =>
      intro acc y hy
      simp only [List.foldl_cons]
      rcases List.mem_cons.mp hy with rfl | hy
      · exact le_trans (le_max_right acc |y|) (le_foldl_absmax xs (max acc |y|))
      · exact ih (max acc |x|) y hy

/-- `absMax` is an upper bound on the absolute values of the list. -/
theorem absMax_isUB {a : List ℚ} {m : ℚ} (h : absMax a = some m) :
    ∀ x ∈ a, |x| ≤ m := by
  match a with
  | [] => simp [absMax] at h
  | x :: xs =>
      simp only [absMax, Option.some.injEq] at h
      subst h
      intro y hy
      rcases List.mem_cons.mp hy with rfl | hy
      · exact le_foldl_absmax xs |y|
      · exact mem_le_foldl_absmax xs |x| y hy

/-- `absMax` is at most any common bound of the absolute values. -/
theorem absMax_le {a : List ℚ} {m c : ℚ} (h : absMax a = some m)
    (hall : ∀ x ∈ a, |x| ≤ c) : m ≤ c := by
  match a with
  | [] => simp [absMax] at h
  | x :: xs =>
      simp only [absMax, Option.some.injEq] at h
      subst h
      exact foldl_absmax_le xs |x| (hall x (by simp)) (fun y hy => hall y (by simp [hy]))

/-- `absMax` succeeds exactly on non-empty lists. -/
theorem absMax_total (a : List ℚ) : a = [] ↔ absMax a = none := by
  cases a <;> simp [absMax]

/-- Claim C6: normalization is a no-op (exact equality) on a non-empty
waveform whose peak magnitude is at most `1`; and the division branch is
unreachable whenever the peak magnitude is `0`, so an all-zero waveform
never divides by zero. -/
theorem normalize_noop :
    (∀ a : List ℚ, a ≠ [] → (∀ x ∈ a, |x| ≤ 1) → normalize a = some a) ∧
    (∀ a : List ℚ, absMax a = some 0 → normalize a = some a) := by
  constructor
  · intro a ha hall
    obtain ⟨m, hm⟩ : ∃ m, absMax a = some m := by
      cases hma : absMax a with
      | none => exact absurd ((absMax_total a).mpr hma) ha
      | some m => exact ⟨m, rfl⟩
    have hle : m ≤ 1 := absMax_le hm hall
    simp only [normalize, hm]
    rw [if_neg (not_lt.mpr hle)]
  · intro a h
    simp only [normalize, h]
    rw [if_neg (by norm_num : ¬ (1 : ℚ) < 0)]

/-- Witness: the all-zero waveform `[0, 0]` is returned unchanged, with
the division branch untaken. -/
theorem normalize_noop_witness :
    normalize [(0 : ℚ), 0] = some [0, 0] :=
  normalize_noop.1 [0, 0] (by decide) (by decide)

/-- Claim C7: preprocessing yields a single-channel list whose values
all lie in `[-1, 1]`; multi-channel audio is collapsed by the arithmetic
mean across channels at each frame; and when the peak exceeds `1` every
sample is divided by that peak. -/
theorem preprocess_bounds :
    (∀ (audio : Audio) (out : List ℚ), preprocess audio = some out →
      ∀ x ∈ out, -1 ≤ x ∧ x ≤ 1) ∧
    (∀ frames : List (List ℚ),
      collapseChannels (Audio.multi frames) =
        frames.map (fun f => f.sum / (f.length : ℚ))) ∧
    (∀ (a : List ℚ) (m : ℚ), absMax a = some m → 1 < m →
      normalize a = some (a.map (fun x => x / m))) := by
  refine ⟨?_, fun frames => rfl, ?_⟩
  · intro audio out h x hx
    rw [preprocess] at h
    cases hma : absMax (collapseChannels audio) with
    | none => rw [normalize, hma] at h; exact absurd h (by simp)
    | some m =>
        simp only [normalize, hma] at h
        by_cases h1 : 1 < m
        · rw [if_pos h1] at h
          obtain ⟨y, hy, rfl⟩ : ∃ y ∈ collapseChannels audio, y / m = x := by
            have := (Option.some.injEq _ _).mp h
            subst this
            exact List.mem_map.mp hx
          have hym : |y| ≤ m := absMax_isUB hma y hy
          have hm0 : (0 : ℚ) < m := lt_trans one_pos h1
          have habs : |y / m| ≤ 1 := by
            rw [abs_div, abs_of_pos hm0]
            exact (div_le_one hm0).mpr hym
          exact abs_le.mp habs
        · rw [if_neg h1] at h
          have := (Option.some.injEq _ _).mp h
          subst this
          have hxm : |x| ≤ m := absMax_isUB hma x hx
          exact abs_le.mp (le_trans hxm (not_lt.mp h1))
  · intro a m h h1
    simp only [normalize, h]
    rw [if_pos h1]

attribute [local semireducible] Rat.mul Rat.inv in
/-- Witness: preprocessing the mono waveform `[2]` divides by the peak
`2` and the resulting value `1` lies in `[-1, 1]`. -/
theorem preprocess_bounds_witness :
    -1 ≤ (1 : ℚ) ∧ (1 : ℚ) ≤ 1 :=
  preprocess_bounds.1 (Audio.mono [2]) [1] (by decide) 1 (by decide)

/-- Normalization succeeds on every non-empty waveform. -/
theorem normalize_total (a : List ℚ) (ha : a ≠ []) : ∃ out, normalize a = some out := by
  cases hma : absMax a with
  | none => exact absurd ((absMax_total a).mpr hma) ha
  | some m =>
      by_cases h1 : 1 < m
      · exact ⟨a.map (fun x => x / m), by simp only [normalize, hma]; rw [if_pos h1]⟩
      · exact ⟨a, by simp only [normalize, hma]; rw [if_neg h1]⟩

/-- Claim C9: on an empty waveform that passes the sample-rate check,
the normalization condition takes `max()` of an empty array and the run
aborts with an uncaught exception, producing no output; preprocessing
succeeds exactly on non-empty waveforms. -/
theorem preprocess_empty_crash :
    (∀ (inp : VadInput) (threshold : ℚ) (rate : Int),
      inp.sr = rate → collapseChannels inp.audio = [] →
      run_vad inp threshold rate = RunResult.unstructuredError) ∧
    normalize [] = none ∧
    (∀ a : List ℚ, a ≠ [] → ∃ out, normalize a = some out) := by
  refine ⟨?_, rfl, normalize_total⟩
  intro inp threshold rate hsr hempty
  simp [run_vad, preprocess, hsr, hempty, normalize, absMax]

/-- Witness: an empty mono waveform at the expected rate `16000`, with
the model present, ends in the uncaught-exception outcome. -/
theorem preprocess_empty_crash_witness :
    run_vad ⟨Audio.mono [], 16000, "models/silero_vad.onnx", true, fun c => c⟩
      (mkRat 1 2) 16000 = RunResult.unstructuredError :=
  preprocess_empty_crash.1 ⟨Audio.mono [], 16000, "models/silero_vad.onnx", true, fun c => c⟩
    (mkRat 1 2) 16000 rfl rfl

/-- Counterexample to claim C8 as stated: with an empty waveform at the
expected sample rate and the model file absent, the run aborts in
normalization with an uncaught exception, so no structured error object
is written even though the model path does not resolve to a file. -/
theorem run_vad_exit_counterexample :
    run_vad ⟨Audio.mono [], 16000, "models/silero_vad.onnx", false, fun c => c⟩
        (mkRat 1 2) 16000 = RunResult.unstructuredError ∧
      (⟨Audio.mono [], 16000, "models/silero_vad.onnx", false, fun c => c⟩
        : VadInput).modelExists = false := by
  exact ⟨rfl, rfl⟩

/-- Claim C8 (amended): a sample-rate mismatch yields the structured
error with the exact f-string message, a non-zero exit, and no
dependence on the inference oracle; a missing model, when the sample
rate matches and the preprocessed waveform is non-empty, yields the
structured model-not-found error, a non-zero exit, and no dependence on
the inference oracle; the exit code is `0` exactly on a successful
segment list. -/
theorem run_vad_exit_behavior :
    ∀ (inp : VadInput) (threshold : ℚ) (rate : Int),
      (inp.sr ≠ rate →
        run_vad inp threshold rate =
          RunResult.structuredError (VadError.sampleRateMismatch inp.sr rate) ∧
        (VadError.sampleRateMismatch inp.sr rate).message =
          "Sample rate mismatch: " ++ toString inp.sr ++ " != " ++ toString rate ∧
        exitCode (run_vad inp threshold rate) ≠ 0 ∧
        (∀ g : List ℚ → List ℚ,
          run_vad { inp with infer := g } threshold rate = run_vad inp threshold rate)) ∧
      (inp.sr = rate → collapseChannels inp.audio ≠ [] → inp.modelExists = false →
        run_vad inp threshold rate =
          RunResult.structuredError (VadError.modelNotFound inp.modelPath) ∧
        (VadError.modelNotFound inp.modelPath).message =
          "Model not found: " ++ inp.modelPath ∧
        exitCode (run_vad inp threshold rate) ≠ 0 ∧
        (∀ g : List ℚ → List ℚ,
          run_vad { inp with infer := g } threshold rate = run_vad inp threshold rate)) ∧
      (exitCode (run_vad inp threshold rate) = 0 ↔
        ∃ segs, run_vad inp threshold rate = RunResult.success segs) := by
  intro inp threshold rate
  refine ⟨?_, ?_, ?_⟩
  · intro hsr
    have h1 : run_vad inp threshold rate =
        RunResult.structuredError (VadError.sampleRateMismatch inp.sr rate) := by
      rw [run_vad, if_pos hsr]
    refine ⟨h1, rfl, ?_, ?_⟩
    · rw [h1]; simp [exitCode]
    · intro g
      rw [run_vad, if_pos hsr, run_vad, if_pos hsr]
  · intro hsr hne hmodel
    obtain ⟨out, hout⟩ := normalize_total _ hne
    have h1 : run_vad inp threshold rate =
        RunResult.structuredError (VadError.modelNotFound inp.modelPath) := by
      rw [run_vad, if_neg (by simp [hsr])]
      simp only [preprocess, hout]
      rw [if_pos hmodel]
    refine ⟨h1, rfl, ?_, ?_⟩
    · rw [h1]; simp [exitCode]
    · intro g
      rw [run_vad, if_neg (by simp [hsr]), run_vad, if_neg (by simp [hsr])]
      simp only [preprocess, hout]
      rw [if_pos hmodel, if_pos hmodel]
  · cases hr : run_vad inp threshold rate with
    | structuredError err => simp [exitCode]
    | success segs => simp [exitCode]
    | unstructuredError => simp [exitCode]

/-- Witness: `sample_rate = 8000` against expected `16000` yields the
structured error whose message renders exactly as
`Sample rate mismatch: 8000 != 16000`. -/
theorem run_vad_exit_behavior_witness :
    run_vad ⟨Audio.mono [0], 8000, "models/silero_vad.onnx", true, fun c => c⟩
        (mkRat 1 2) 16000 =
      RunResult.structuredError (VadError.sampleRateMismatch 8000 16000) ∧
    (VadError.sampleRateMismatch (8000 : Int) (16000 : Int)).message =
      "Sample rate mismatch: 8000 != 16000" := by
  have h := (run_vad_exit_behavior
    ⟨Audio.mono [0], 8000, "models/silero_vad.onnx", true, fun c => c⟩
    (mkRat 1 2) 16000).1 (by decide)
  exact ⟨h.1, h.2.1.trans (by decide)⟩

/-- Claim C10: with a mismatching sample rate and an absent model file,
the reported structured error is always the sample-rate mismatch and
never the missing model: the sample-rate check runs before the
model-existence check. -/
theorem sr_check_precedes_model_check :
    ∀ (inp : VadInput) (threshold : ℚ) (rate : Int),
      inp.sr ≠ rate → inp.modelExists = false →
      run_vad inp threshold rate =
        RunResult.structuredError (VadError.sampleRateMismatch inp.sr rate) ∧
      (∀ p : String, run_vad inp threshold rate ≠
        RunResult.structuredError (VadError.modelNotFound p)) := by
  intro inp threshold rate hsr _
  have h1 : run_vad inp threshold rate =
      RunResult.structuredError (VadError.sampleRateMismatch inp.sr rate) := by
    rw [run_vad, if_pos hsr]
  refine ⟨h1, ?_⟩
  intro p hcontra
  rw [h1] at hcontra
  simp at hcontra

/-- Witness: rate `8000` against `16000` with the model absent reports
the sample-rate mismatch, not the missing model. -/
theorem sr_check_precedes_model_check_witness :
    run_vad ⟨Audio.mono [0], 8000, "models/silero_vad.onnx", false, fun c => c⟩
        (mkRat 1 2) 16000 =
      RunResult.structuredError (VadError.sampleRateMismatch 8000 16000) ∧
    run_vad ⟨Audio.mono [0], 8000, "models/silero_vad.onnx", false, fun c => c⟩
        (mkRat 1 2) 16000 ≠
      RunResult.structuredError (VadError.modelNotFound "models/silero_vad.onnx") :=
  ⟨(sr_check_precedes_model_check _ (mkRat 1 2) 16000 (by decide) rfl).1,
   (sr_check_precedes_model_check _ (mkRat 1 2) 16000 (by decide) rfl).2
     "models/silero_vad.onnx"⟩

/-- One loop iteration preserves the mid-scan invariant. -/
theorem vadStep_inv (threshold prob : ℚ) (i : Nat) (st : VadState)
    (h : VadInv i st) : VadInv (i + 1) (vadStep threshold i prob st) := by
  obtain ⟨hpw, hpos, hsp, hsil⟩ := h
  unfold VadInv
  rw [vadStep]
  split_ifs with h1 h2
  · refine ⟨hpw, hpos, ?_, ?_⟩
    · intro _
      exact ⟨Nat.lt_succ_self i, fun s hs' => hsil h1.1 s hs'⟩
    · intro hfalse
      simp at hfalse
  · obtain ⟨hstart, hends⟩ := hsp h2.1
    refine ⟨?_, ?_, ?_, ?_⟩
    · rw [List.pairwise_append]
      refine ⟨hpw, List.pairwise_singleton _ _, ?_⟩
      intro a ha b hb
      simp only [List.mem_singleton] at hb
      subst hb
      exact hends a ha
    · intro s hs'
      rcases List.mem_append.mp hs' with h' | h'
      · exact hpos s h'
      · simp only [List.mem_singleton] at h'
        subst h'
        exact hstart
    · intro hfalse
      simp at hfalse
    · intro _ s hs'
      rcases List.mem_append.mp hs' with h' | h'
      · exact lt_trans (lt_trans (hends s h') hstart) (Nat.lt_succ_self i)
      · simp only [List.mem_singleton] at h'
        subst h'
        exact Nat.lt_succ_self i
  · refine ⟨hpw, hpos, ?_, ?_⟩
    · intro hs
      obtain ⟨ha, hb⟩ := hsp hs
      exact ⟨Nat.lt_succ_of_lt ha, hb⟩
    · intro hs s hs'
      exact Nat.lt_succ_of_lt (hsil hs s hs')

/-- The whole scan preserves the mid-scan invariant. -/
theorem vadLoop_inv (threshold : ℚ) (ps : List ℚ) :
    ∀ (i : Nat) (st : VadState), VadInv i st →
      VadInv (i + ps.length) (vadLoop threshold ps i st) := by
  induction ps with
  | nil =>
      intro i st h
      simpa [vadLoop] using h
  | cons p ps ih =>
      intro i st h
      have h2 := ih (i + 1) (vadStep threshold i p st) (vadStep_inv threshold p i st h)
      rw [vadLoop]
      have hlen : i + (p :: ps).length = i + 1 + ps.length := by
        simp only [List.length_cons]
        omega
      rw [hlen]
      exact h2

/-- The loop-entry state satisfies the invariant at index `0`. -/
theorem initState_inv : VadInv 0 initState := by
  simp [VadInv, initState]

/-- Closing a trailing open segment at `n` under the invariant gives a
strictly separated list of positive-length segments ending by `n`. -/
theorem finishVad_inv {n : Nat} {st : VadState} (h : VadInv n st) :
    List.Pairwise (fun a b : Nat × Nat => a.2 < b.1) (finishVad n st) ∧
    ∀ s ∈ finishVad n st, s.1 < s.2 ∧ s.2 ≤ n := by
  obtain ⟨hpw, hpos, hsp, hsil⟩ := h
  rw [finishVad]
  split_ifs with hs
  · obtain ⟨hstart, hends⟩ := hsp hs
    constructor
    · rw [List.pairwise_append]
      refine ⟨hpw, List.pairwise_singleton _ _, ?_⟩
      intro a ha b hb
      simp only [List.mem_singleton] at hb
      subst hb
      exact hends a ha
    · intro s hs'
      rcases List.mem_append.mp hs' with h' | h'
      · exact ⟨hpos s h', le_of_lt (lt_trans (hends s h') hstart)⟩
      · simp only [List.mem_singleton] at h'
        subst h'
        exact ⟨hstart, le_refl n⟩
  · simp only [Bool.not_eq_true] at hs
    exact ⟨hpw, fun s hmem => ⟨hpos s hmem, le_of_lt (hsil hs s hmem)⟩⟩

/-- Coverage across appending one closing segment. -/
theorem coveredBy_append (j : Nat) (l : List (Nat × Nat)) (a b : Nat) :
    coveredBy j (l ++ [(a, b)]) ↔ coveredBy j l ∨ (a ≤ j ∧ j < b) := by
  simp only [coveredBy, List.mem_append, List.mem_singleton]
  constructor
  · rintro ⟨s, hs | rfl, hj⟩
    · exact Or.inl ⟨s, hs, hj⟩
    · exact Or.inr hj
  · rintro (⟨s, hs, hj⟩ | hj)
    · exact ⟨s, Or.inl hs, hj⟩
    · exact ⟨(a, b), Or.inr rfl, hj⟩

/-- For an index `j` already behind the scan position `i`, membership in
the final segment list is decided by the state at `i`: either `j` lies
in an already-closed segment, or the segment open at `i` started at or
before `j`. -/
theorem cover_loop (threshold : ℚ) (ps : List ℚ) :
    ∀ (i j : Nat) (st : VadState), j < i →
      (coveredBy j (finishVad (i + ps.length) (vadLoop threshold ps i st)) ↔
        coveredBy j st.segments ∨ (st.in_speech = true ∧ st.seg_start ≤ j)) := by
  induction ps with
  | nil =>
      intro i j st hj
      rw [vadLoop]
      simp only [List.length_nil, Nat.add_zero]
      rw [finishVad]
      split_ifs with hs
      · rw [coveredBy_append]
        constructor
        · rintro (h | ⟨h1, _⟩)
          · exact Or.inl h
          · exact Or.inr ⟨hs, h1⟩
        · rintro (h | ⟨_, h1⟩)
          · exact Or.inl h
          · exact Or.inr ⟨h1, hj⟩
      · simp only [Bool.not_eq_true] at hs
        simp [hs]
  | cons p ps ih =>
      intro i j st hj
      rw [vadLoop]
      have hlen : i + (p :: ps).length = (i + 1) + ps.length := by
        simp only [List.length_cons]
        omega
      rw [hlen]
      rw [ih (i + 1) j (vadStep threshold i p st) (Nat.lt_succ_of_lt hj)]
      rw [vadStep]
      split_ifs with h1 h2
      · constructor
        · rintro (h | ⟨_, hij⟩)
          · exact Or.inl h
          · exact absurd hij (not_le.mpr hj)
        · rintro (h | ⟨hsp', _⟩)
          · exact Or.inl h
          · rw [h1.1] at hsp'
            exact absurd hsp' (by simp)
      · rw [coveredBy_append]
        constructor
        · rintro ((h | ⟨ha, _⟩) | ⟨hfalse, _⟩)
          · exact Or.inl h
          · exact Or.inr ⟨h2.1, ha⟩
          · simp at hfalse
        · rintro (h | ⟨_, hsegj⟩)
          · exact Or.inl (Or.inl h)
          · exact Or.inl (Or.inr ⟨hsegj, hj⟩)
      · exact Iff.rfl

/-- Running the scan over a concatenation splits into two scans. -/
theorem vadLoop_append (threshold : ℚ) (l2 : List ℚ) :
    ∀ (l1 : List ℚ) (i : Nat) (st : VadState),
      vadLoop threshold (l1 ++ l2) i st =
        vadLoop threshold l2 (i + l1.length) (vadLoop threshold l1 i st) := by
  intro l1
  induction l1 with
  | nil =>
      intro i st
      simp [vadLoop]
  | cons p ps ih =>
      intro i st
      have hlen : i + (p :: ps).length = (i + 1) + ps.length := by
        simp only [List.length_cons]
        omega
      rw [hlen, List.cons_append]
      rw [show vadLoop threshold (p :: (ps ++ l2)) i st =
            vadLoop threshold (ps ++ l2) (i + 1) (vadStep threshold i p st) from rfl]
      rw [show vadLoop threshold (p :: ps) i st =
            vadLoop threshold ps (i + 1) (vadStep threshold i p st) from rfl]
      exact ih (i + 1) (vadStep threshold i p st)

/-- The scan is hysteresis-free: after processing a probability, the
state is `Speech` exactly when that probability strictly exceeded the
threshold. -/
theorem vadStep_in_speech (threshold prob : ℚ) (i : Nat) (st : VadState) :
    (vadStep threshold i prob st).in_speech = decide (threshold < prob) := by
  rw [vadStep]
  split_ifs with h1 h2
  · simp [h1.2]
  · simp [not_lt.mpr h2.2]
  · cases hs : st.in_speech
    · have hnlt : ¬ threshold < prob := fun hlt => h1 ⟨hs, hlt⟩
      simp [hs, hnlt]
    · have hnle : ¬ prob ≤ threshold := fun hle => h2 ⟨hs, hle⟩
      simp [hs, not_le.mp hnle]

/-- After scanning a curve ending in `p`, the state is `Speech` exactly
when `p` strictly exceeds the threshold. -/
theorem vadLoop_concat_in_speech (threshold p : ℚ) :
    ∀ (ps : List ℚ) (i : Nat) (st : VadState),
      (vadLoop threshold (ps ++ [p]) i st).in_speech = decide (threshold < p) := by
  intro ps
  induction ps with
  | nil =>
      intro i st
      rw [List.nil_append]
      rw [show vadLoop threshold [p] i st = vadStep threshold i p st from rfl]
      exact vadStep_in_speech threshold p i st
  | cons q qs ih =>
      intro i st
      rw [List.cons_append]
      rw [show vadLoop threshold (q :: (qs ++ [p])) i st =
            vadLoop threshold (qs ++ [p]) (i + 1) (vadStep threshold i q st) from rfl]
      exact ih (i + 1) (vadStep threshold i q st)

/-- The state after scanning the first `j+1` probabilities is `Speech`
exactly when the `j`-th probability strictly exceeds the threshold. -/
theorem in_speech_at (threshold : ℚ) (probs : List ℚ) (j : Nat) (hj : j < probs.length) :
    (vadLoop threshold (probs.take (j + 1)) 0 initState).in_speech =
      decide (threshold < probs.get ⟨j, hj⟩) := by
  rw [List.take_succ, List.getElem?_eq_getElem hj]
  rw [show (some probs[j]).toList = [probs[j]] from rfl]
  rw [show probs.get ⟨j, hj⟩ = probs[j] from rfl]
  exact vadLoop_concat_in_speech threshold probs[j] (probs.take j) 0 initState

/-- Claim C1: partition property of the segmenter: the emitted segments are
strictly separated (each ends strictly before the next starts, so they
are pairwise non-overlapping with nonempty silence gaps between them),
sorted by start strictly ascending, of positive length, contained in
`[0, N]`, each index is covered by at most one segment, and an index
`j < N` is covered by a segment exactly when its probability strictly
exceeds the threshold — so segments and gaps exactly partition `[0, N)`
into the alternating speech/silence runs of the curve. -/
theorem segmenter_partition (probs : List ℚ) (threshold : ℚ) :
    List.Pairwise (fun a b : Nat × Nat => a.2 < b.1) (segmentProbs probs threshold) ∧
    List.Pairwise (fun a b : Nat × Nat => a.1 < b.1) (segmentProbs probs threshold) ∧
    (∀ s ∈ segmentProbs probs threshold, s.1 < s.2 ∧ s.2 ≤ probs.length) ∧
    (∀ (j : Nat), ∀ s ∈ segmentProbs probs threshold, ∀ t ∈ segmentProbs probs threshold,
      s.1 ≤ j → j < s.2 → t.1 ≤ j → j < t.2 → s = t) ∧
    (∀ (j : Nat) (hj : j < probs.length),
      coveredBy j (segmentProbs probs threshold) ↔ threshold < probs.get ⟨j, hj⟩) := by
  have hinv : VadInv probs.length (vadLoop threshold probs 0 initState) := by
    have h := vadLoop_inv threshold probs 0 initState initState_inv
    rwa [Nat.zero_add] at h
  obtain ⟨hpw, hbounds⟩ := finishVad_inv hinv
  have hpw' : List.Pairwise (fun a b : Nat × Nat => a.2 < b.1)
      (segmentProbs probs threshold) := hpw
  have hbounds' : ∀ s ∈ segmentProbs probs threshold,
      s.1 < s.2 ∧ s.2 ≤ probs.length := hbounds
  refine ⟨hpw', ?_, hbounds', ?_, ?_⟩
  · exact List.Pairwise.imp_of_mem
      (fun ha _ hab => lt_trans (hbounds' _ ha).1 hab) hpw'
  · intro j s hs t ht hs1 hs2 ht1 ht2
    by_contra hne
    obtain ⟨is, his⟩ := List.get_of_mem hs
    obtain ⟨it, hit⟩ := List.get_of_mem ht
    have hiff := List.pairwise_iff_get.mp hpw'
    rcases lt_trichotomy is it with hlt | heq | hlt
    · have hord := hiff is it hlt
      rw [his, hit] at hord
      omega
    · rw [heq] at his
      exact hne (his.symm.trans hit)
    · have hord := hiff it is hlt
      rw [his, hit] at hord
      omega
  · intro j hj
    have hlen1 : (probs.take (j + 1)).length = j + 1 := by
      rw [List.length_take]
      omega
    have hloop : vadLoop threshold probs 0 initState =
        vadLoop threshold (probs.drop (j + 1)) (j + 1)
          (vadLoop threshold (probs.take (j + 1)) 0 initState) := by
      conv_lhs => rw [(List.take_append_drop (j + 1) probs).symm]
      rw [vadLoop_append, hlen1, Nat.zero_add]
    have hlen2 : probs.length = (j + 1) + (probs.drop (j + 1)).length := by
      rw [List.length_drop]
      omega
    have hcl := cover_loop threshold (probs.drop (j + 1)) (j + 1) j
      (vadLoop threshold (probs.take (j + 1)) 0 initState) (Nat.lt_succ_self j)
    have hresult : coveredBy j (segmentProbs probs threshold) ↔
        coveredBy j (vadLoop threshold (probs.take (j + 1)) 0 initState).segments ∨
        ((vadLoop threshold (probs.take (j + 1)) 0 initState).in_speech = true ∧
          (vadLoop threshold (probs.take (j + 1)) 0 initState).seg_start ≤ j) := by
      rw [segmentProbs, hloop, hlen2]
      exact hcl
    rw [hresult]
    have hinvPre : VadInv (j + 1) (vadLoop threshold (probs.take (j + 1)) 0 initState) := by
      have h := vadLoop_inv threshold (probs.take (j + 1)) 0 initState initState_inv
      rwa [Nat.zero_add, hlen1] at h
    have hspeech := in_speech_at threshold probs j hj
    cases hs : (vadLoop threshold (probs.take (j + 1)) 0 initState).in_speech with
    | true =>
        have hlt : threshold < probs.get ⟨j, hj⟩ :=
          of_decide_eq_true (hspeech.symm.trans hs)
        constructor
        · intro _
          exact hlt
        · intro _
          exact Or.inr ⟨rfl, Nat.lt_succ_iff.mp (hinvPre.2.2.1 hs).1⟩
    | false =>
        have hnlt : ¬ threshold < probs.get ⟨j, hj⟩ :=
          of_decide_eq_false (hspeech.symm.trans hs)
        constructor
        · rintro (hcov | ⟨habs, _⟩)
          · simp only [coveredBy] at hcov
            obtain ⟨s, hsmem, hs1, hs2⟩ := hcov
            have hend := hinvPre.2.2.2 hs s hsmem
            exact absurd hs2 (by omega)
          · exact absurd habs (by simp)
        · intro hlt
          exact absurd hlt hnlt

/-- Witness: on the curve `[0.1, 0.9]` at threshold `0.5`, index `1`
(probability `0.9 > 0.5`) is covered by an emitted segment. -/
theorem segmenter_partition_witness :
    coveredBy 1 (segmentProbs [mkRat 1 10, mkRat 9 10] (mkRat 1 2)) :=
  ((segmenter_partition [mkRat 1 10, mkRat 9 10] (mkRat 1 2)).2.2.2.2 1
    (by decide)).mpr (by decide)

end SileroVad
